import Mathlib

/-!
Verification of the `bellman` value-iteration solver (`bellman.hpp`).

The embedding follows the C++ source closely:
* `Real` (C++ `double`) is modelled by `ℚ`, so all arithmetic is exact;
  the `-INF` sentinel used by the per-state action maximization is
  modelled by `⊥ : WithBot ℚ`.
* `Index`/`uint` is modelled by `ℕ` (the programs stay far from 2^32;
  the codec claims explicitly restrict to in-range indices).
* the mutable member arrays `value` and `policy` are threaded
  explicitly through the sweep as fields of the `Bellman` record.
* `std::vector` indexing `v[i]` (unchecked) is modelled by `List.getD`
  with default `0`; the checked `v.at(i)` by `List.get?`.
-/

/-- Problem definition: the two pure virtual methods `dynamic` and
`reward` that a derived class supplies to the solver. -/
structure Problem where
  dynamic : ℕ → ℕ → ℕ → ℚ
  reward : ℕ → ℕ → ℚ

/-- Solver state: the data members of class `Bellman` in `bellman.hpp`
(`nS`, `nA`, `discount`, `value`, `policy`, and the optional sparse
transition matrix `transitions`, S x A x list of `(s1, p)` pairs). -/
structure Bellman where
  nS : ℕ
  nA : ℕ
  discount : ℚ
  value : List ℚ
  policy : List ℕ
  transitions : List (List (List (ℕ × ℚ)))
  deriving DecidableEq

/-- The constructor `Bellman::Bellman(nS, nA, discount)` (bellman.hpp
lines 44-50): stores the configuration and value-initializes `value`
and `policy` to `nS` zeros; `transitions` is default-empty. The C++
constructor performs no validation of its arguments. -/
def mkBellman (nS nA : ℕ) (discount : ℚ) : Bellman :=
  { nS := nS
    nA := nA
    discount := discount
    value := List.replicate nS 0
    policy := List.replicate nS 0
    transitions := [] }

/-- Follows the spec's words (section 4.1): construction "Fails
(construction error) if `nS == 0`, `nA == 0`, or `γ` outside `[0,1]`",
and otherwise succeeds. Stated for comparison with the implemented
(unchecked) `mkBellman`. -/
def mkBellmanChecked (nS nA : ℕ) (g : ℚ) : Option Bellman :=
  if nS = 0 ∨ nA = 0 ∨ g < 0 ∨ 1 < g then none else some (mkBellman nS nA g)

/-- The expectation accumulation loop of `Bellman::improve`
(bellman.hpp lines 110-123): if the sparse `transitions` structure is
non-empty it is used, otherwise the dense scan over all ending states
calls `dynamic`. Reads the current (working) `value` member of `B`. -/
def expectation (B : Bellman) (P : Problem) (s a : ℕ) : ℚ :=
  if B.transitions.length ≠ 0 then
    ((B.transitions.getD s []).getD a []).foldl
      (fun e sp => e + sp.2 * B.value.getD sp.1 0) 0
  else
    (List.range B.nS).foldl
      (fun e s1 => e + P.dynamic s a s1 * B.value.getD s1 0) 0

/-- The candidate value `reward(s, a) + discount*expectation`
(bellman.hpp line 125). -/
def candidate (B : Bellman) (P : Problem) (s a : ℕ) : ℚ :=
  P.reward s a + B.discount * expectation B P s a

/-- One step of the action-maximization loop (bellman.hpp lines
124-129): replace the running best exactly when the candidate is
strictly greater. -/
def bestStep (B : Bellman) (P : Problem) (s : ℕ)
    (best : WithBot ℚ × ℕ) (a : ℕ) : WithBot ℚ × ℕ :=
  if best.1 < (candidate B P s a : WithBot ℚ)
    then ((candidate B P s a : WithBot ℚ), a) else best

/-- The action loop of `Bellman::improve` (bellman.hpp lines 105-130):
`best_value` starts at `-INF` (modelled `⊥`), `best_action` at `0`,
and each action `a < nA` is compared in index order. -/
def bestAction (B : Bellman) (P : Problem) (s : ℕ) : WithBot ℚ × ℕ :=
  (List.range B.nA).foldl (bestStep B P s) (⊥, 0)

/-- The body of the state loop of `Bellman::improve` (bellman.hpp
lines 104-136) for one state `s`: maximize over actions, fold this
state's convergence test into the sweep flag (comparing the value
held before this state's in-place update), then overwrite `value[s]`
and `policy[s]`. `WithBot.unbot' 0` strips the `⊥` sentinel; it is
only reached when `nA = 0` (where the C++ stores `-INF`, outside the
rational carrier), and every theorem about sweeps assumes `0 < nA`. -/
def stateStep (P : Problem) (tol : ℚ) (acc : Bellman × Bool) (s : ℕ) :
    Bellman × Bool :=
  let B := acc.1
  let best := bestAction B P s
  let bq := best.1.unbot' 0
  ({ B with value := B.value.set s bq, policy := B.policy.set s best.2 },
   acc.2 && decide (|B.value.getD s 0 - bq| < tol))

/-- One full sweep of `Bellman::improve` (bellman.hpp lines 101-136):
states are processed in index order, in place (the working arrays are
threaded through), starting from `converged = true`. Returns the
updated solver and the sweep's converged flag. -/
def sweep (B : Bellman) (P : Problem) (tol : ℚ) : Bellman × Bool :=
  (List.range B.nS).foldl (stateStep P tol) (B, true)

/-- The iteration loop of `Bellman::improve` (bellman.hpp lines
96-142), with the current iteration number `i` (starting at 1) and the
remaining iteration count: run a sweep, stop and report iteration `i`
if it converged, otherwise continue. Returns the final solver and
`some i` when the loop broke at iteration `i`, `none` otherwise. -/
def improveFrom (P : Problem) (tol : ℚ) : Bellman → ℕ → ℕ → Bellman × Option ℕ
  | B, _, 0 => (B, none)
  | B, i, rem + 1 =>
    let r := sweep B P tol
    if r.2 then (r.1, some i) else improveFrom P tol r.1 (i + 1) rem

/-- `Bellman::improve(iterations, tolerance)` (bellman.hpp lines
92-147): up to `iterations` sweeps, stopping early at the first
converged sweep. The `Option ℕ` component models the reported
outcome: `some i` for "Converged at iteration i", `none` for
"Finished at max iteration". -/
def improve (B : Bellman) (P : Problem) (iterations : ℕ) (tol : ℚ) :
    Bellman × Option ℕ :=
  improveFrom P tol B 1 iterations

/-- The solver after `k` full sweeps (no early stopping); reference
iterate used to state what `improve` computes. -/
def sweepIter (P : Problem) (tol : ℚ) (B : Bellman) : ℕ → Bellman
  | 0 => B
  | k + 1 => (sweep (sweepIter P tol B k) P tol).1

/-- `Bellman::get_value_at` (bellman.hpp line 58): `value.at(s)`,
which is bounds-checked; the out-of-range failure is modelled by
`none`. -/
def get_value_at (B : Bellman) (s : ℕ) : Option ℚ := B.value.get? s

/-- `Bellman::get_action_at` (bellman.hpp line 59): `policy.at(s)`,
bounds-checked. -/
def get_action_at (B : Bellman) (s : ℕ) : Option ℕ := B.policy.get? s

/-- `Bellman::index_from_coords` (bellman.hpp lines 150-157): the loop
`index = coords[i] + dims[i]*index` for `i` from `0` to
`min(coords.size(), dims.size()) - 1`, starting from `0`. `List.zip`
pairs the two vectors up to exactly that common length. -/
def index_from_coords (coords dims : List ℕ) : ℕ :=
  (coords.zip dims).foldl (fun index cd => cd.1 + cd.2 * index) 0

/-- The loop body of `Bellman::coords_from_index` on dimension sizes
listed in reverse order (the C++ loop runs `i` from `dims.size()-1`
down to `0`, writing `coords[i] = index % dims[i]` then
`index /= dims[i]`). -/
def decodeRev : ℕ → List ℕ → List ℕ
  | _, [] => []
  | index, d :: ds => (index % d) :: decodeRev (index / d) ds

/-- `Bellman::coords_from_index` (bellman.hpp lines 160-167): the
mod/div loop over the dimensions from last to first. -/
def coords_from_index (index : ℕ) (dims : List ℕ) : List ℕ :=
  (decodeRev index dims.reverse).reverse

/-- Follows the spec's words (section 4.1, Index Codec): the formula
"index = Σ_i coord[i] · Π_{j<i} dim[j] (least-significant dimension
first)", over the common length of the two vectors. Stated for
comparison with the implemented `index_from_coords`. -/
def indexSpecFormula (coords dims : List ℕ) : ℕ :=
  ∑ i ∈ Finset.range (min coords.length dims.length),
    coords.getD i 0 * ∏ j ∈ Finset.range i, dims.getD j 0

/-- Follows the spec's words (sections 4.1 and 5): a double-buffered,
synchronous (Jacobi) sweep in which every state's expectation is
computed from the value array as it stood at the start of the sweep.
Stated for comparison with the implemented in-place `sweep`. -/
def jacobiSweep (B : Bellman) (P : Problem) : Bellman :=
  { B with
    value := (List.range B.nS).map (fun s => (bestAction B P s).1.unbot' 0)
    policy := (List.range B.nS).map (fun s => (bestAction B P s).2) }

/-- The sweep of `Bellman::improve` stopped after processing the
states `0, 1, ..., k-1`: the partially completed working state used to
reason about the in-place state loop. `sweepAcc P tol B B.nS = sweep B
P tol`. -/
def sweepAcc (P : Problem) (tol : ℚ) (B : Bellman) (k : ℕ) : Bellman × Bool :=
  (List.range k).foldl (stateStep P tol) (B, true)

/-- The sparse transition structure lists, for every in-range `(s, a)`
pair, exactly the nonzero `(s1, probability)` entries of `dynamic`:
per-state-and-action lists whose keys are distinct in-range states,
whose probabilities agree with `dynamic` and are nonzero, and which
cover every nonzero entry of `dynamic`. -/
def SparseMatches (B : Bellman) (P : Problem) : Prop :=
  B.transitions.length = B.nS ∧
  ∀ s, s < B.nS →
    (B.transitions.getD s []).length = B.nA ∧
    ∀ a, a < B.nA →
      (((B.transitions.getD s []).getD a []).map Prod.fst).Nodup ∧
      (∀ p ∈ (B.transitions.getD s []).getD a [],
        p.1 < B.nS ∧ p.2 = P.dynamic s a p.1 ∧ p.2 ≠ 0) ∧
      (∀ s1, s1 < B.nS → P.dynamic s a s1 ≠ 0 →
        s1 ∈ ((B.transitions.getD s []).getD a []).map Prod.fst)

/-- Simulation relation for the dense/sparse equivalence: `X` runs
with the sparse structure of `B`, `Y` runs densely (no sparse
structure); both share `B`'s configuration and carry identical working
`value` and `policy` arrays. -/
def SimRel (B X Y : Bellman) : Prop :=
  X.nS = B.nS ∧ X.nA = B.nA ∧ X.discount = B.discount ∧
  X.transitions = B.transitions ∧
  Y.nS = B.nS ∧ Y.nA = B.nA ∧ Y.discount = B.discount ∧
  Y.transitions = [] ∧
  X.value = Y.value ∧ X.policy = Y.policy

/-- Helper for reasoning about the codec: the mixed-radix value of a
coordinate list paired with a dimension list, both given in reverse
order (least-significant entry first). -/
def encodeRev : List ℕ → List ℕ → ℕ
  | _, [] => 0
  | [], _ :: _ => 0
  | c :: cs, d :: ds => c + d * encodeRev cs ds

/-- Concrete two-state, one-action problem used to separate the
implemented in-place sweep from the double-buffered one: state 0 earns
reward 1, every transition returns to state 0. -/
def cexP : Problem :=
  { dynamic := fun _ _ s1 => if s1 = 0 then 1 else 0
    reward := fun s _ => if s = 0 then 1 else 0 }

/-- Concrete solver state for `cexP`, fresh from construction. -/
def cexB : Bellman :=
  { nS := 2, nA := 1, discount := 1, value := [0, 0], policy := [0, 0],
    transitions := [] }

/-- The solver state `cexB` equipped with the sparse transition
structure that lists exactly the nonzero entries of `cexP.dynamic`
(every state and action transitions to state 0 with probability 1). -/
def cexBs : Bellman :=
  { cexB with transitions := [[[(0, 1)]], [[(0, 1)]]] }

/-- Concrete two-state, two-action problem used in witnesses. -/
def witP : Problem :=
  { dynamic := fun s a s1 =>
      if s = 0 then
        (if a = 0 then (if s1 = 0 then 1 else 0) else (if s1 = 1 then 1 else 0))
      else (if a = 0 then (1 : ℚ)/2 else (if s1 = 1 then 1 else 0))
    reward := fun s a => if s = 0 ∧ a = 1 then 2 else 1 }

/-- Concrete solver state for `witP` carrying the sparse transition
structure whose lists are exactly the nonzero entries of
`witP.dynamic`. -/
def witB : Bellman :=
  { nS := 2, nA := 2, discount := 1/2, value := [0, 0], policy := [0, 0],
    transitions := [[[(0, 1)], [(1, 1)]],
                    [[(0, (1 : ℚ)/2), (1, (1 : ℚ)/2)], [(1, 1)]]] }

/-! ### List index helpers shared by several proofs -/

theorem getD_set_ne {α : Type} (l : List α) {i j : ℕ} (a d : α) (h : i ≠ j) :
    (l.set i a).getD j d = l.getD j d := by
  rw [List.getD_eq_getD_get?, List.getD_eq_getD_get?, List.get?_set_ne _ _ h]

theorem getD_set_self {α : Type} (l : List α) {i : ℕ} (a d : α) (h : i < l.length) :
    (l.set i a).getD i d = a := by
  rw [List.getD_eq_getD_get?, List.get?_set_eq_of_lt _ h]; rfl

/-! ### The index codec -/

/-- Horner evaluation of the encoding loop: the folded index is the sum
of each entry weighted by the product of all later dimension sizes. -/
theorem foldl_horner (l : List (ℕ × ℕ)) :
    l.foldl (fun index cd => cd.1 + cd.2 * index) 0
      = ∑ i ∈ Finset.range l.length,
          (l.getD i (0, 0)).1 * ∏ j ∈ Finset.Ico (i + 1) l.length, (l.getD j (0, 0)).2 := by
  induction l using List.reverseRecOn with
  | nil => simp
  | append_singleton l cd ih =>
    have hL : (l ++ [cd]).foldl (fun index cd => cd.1 + cd.2 * index) 0
        = cd.1 + cd.2 * l.foldl (fun index cd => cd.1 + cd.2 * index) 0 := by
      rw [List.foldl_append]; rfl
    rw [hL, ih]
    have hn : (l ++ [cd]).length = l.length + 1 := by simp
    rw [hn, Finset.sum_range_succ]
    have hlast : (l ++ [cd]).getD l.length (0, 0) = cd := by
      rw [List.getD_append_right _ _ _ _ (le_refl _), Nat.sub_self]; rfl
    have hterm : ∀ i ∈ Finset.range l.length,
        ((l ++ [cd]).getD i (0, 0)).1 * ∏ j ∈ Finset.Ico (i + 1) (l.length + 1),
            ((l ++ [cd]).getD j (0, 0)).2
          = (l.getD i (0, 0)).1 *
              ((∏ j ∈ Finset.Ico (i + 1) l.length, (l.getD j (0, 0)).2) * cd.2) := by
      intro i hi
      rw [Finset.mem_range] at hi
      rw [List.getD_append _ _ _ _ hi,
        Finset.prod_Ico_succ_top (Nat.succ_le_of_lt hi), hlast]
      congr 1
      refine congrArg (· * cd.2) ?_
      refine Finset.prod_congr rfl ?_
      intro j hj
      rw [Finset.mem_Ico] at hj
      rw [List.getD_append _ _ _ _ hj.2]
    rw [Finset.sum_congr rfl hterm, hlast]
    simp only [Finset.Ico_self, Finset.prod_empty, mul_one, ← mul_assoc,
      ← Finset.sum_mul]
    ring

/-- Entries of a zip of two lists, read with defaults, within the
common length. -/
theorem zip_getD (cs ds : List ℕ) (i : ℕ) (h : i < min cs.length ds.length) :
    (cs.zip ds).getD i (0, 0) = (cs.getD i 0, ds.getD i 0) := by
  have hz : i < (cs.zip ds).length := by simpa [List.length_zip] using h
  have hc : i < cs.length := lt_of_lt_of_le h (min_le_left _ _)
  have hd : i < ds.length := lt_of_lt_of_le h (min_le_right _ _)
  rw [List.getD_eq_getElem _ _ hz, List.getElem_zip,
    List.getD_eq_getElem _ _ hc, List.getD_eq_getElem _ _ hd]

/-- The encoding loop evaluated on reversed argument lists of equal
length is the least-significant-first mixed-radix value. -/
theorem index_eq_encodeRev (csr dsr : List ℕ) (hlen : csr.length = dsr.length) :
    index_from_coords csr.reverse dsr.reverse = encodeRev csr dsr := by
  induction csr generalizing dsr with
  | nil =>
    cases dsr with
    | nil => rfl
    | cons d ds => simp at hlen
  | cons c cs ih =>
    cases dsr with
    | nil => simp at hlen
    | cons d ds =>
      have hlen' : cs.length = ds.length := by simpa using hlen
      have hrev : cs.reverse.length = ds.reverse.length := by simpa using hlen'
      rw [List.reverse_cons, List.reverse_cons]
      unfold index_from_coords
      rw [List.zip_append hrev, List.foldl_append]
      show (fun index cd => cd.1 + cd.2 * index)
          (index_from_coords cs.reverse ds.reverse) (c, d) = _
      rw [ih ds hlen']
      rfl

/-- Decoding inverts encoding, both taken on reversed lists: the first
entry is recovered by `mod`, the quotient carries the rest. -/
theorem decodeRev_encodeRev (csr dsr : List ℕ) (hlen : csr.length = dsr.length)
    (hb : ∀ i, i < dsr.length → csr.getD i 0 < dsr.getD i 0) :
    decodeRev (encodeRev csr dsr) dsr = csr := by
  induction csr generalizing dsr with
  | nil =>
    cases dsr with
    | nil => rfl
    | cons d ds => simp at hlen
  | cons c cs ih =>
    cases dsr with
    | nil => simp at hlen
    | cons d ds =>
      have hc : c < d := by simpa using hb 0 (by simp)
      have hd : 0 < d := lt_of_le_of_lt (Nat.zero_le c) hc
      show decodeRev (c + d * encodeRev cs ds) (d :: ds) = c :: cs
      have h1 : (c + d * encodeRev cs ds) % d = c := by
        rw [Nat.add_mul_mod_self_left, Nat.mod_eq_of_lt hc]
      have h2 : (c + d * encodeRev cs ds) / d = encodeRev cs ds := by
        rw [Nat.add_mul_div_left _ _ hd, Nat.div_eq_of_lt hc, Nat.zero_add]
      rw [decodeRev, h1, h2,
        ih ds (by simpa using hlen) (fun i hi => hb (i + 1) (by simpa using hi))]

/-- Reading a reversed list with a default, within bounds. -/
theorem getD_reverse {α : Type} (l : List α) (d : α) {i : ℕ} (h : i < l.length) :
    l.reverse.getD i d = l.getD (l.length - 1 - i) d := by
  have h' : i < l.reverse.length := by simpa using h
  rw [List.getD_eq_getElem _ _ h', List.getElem_reverse,
    List.getD_eq_getElem _ _ (by omega)]

/-- C3: counterexample. The spec's encoding formula
`Σ_i coord[i]·Π_{j<i} dim[j]` (least-significant dimension first)
disagrees with the implemented `index_from_coords` already on
`coords = [1,0]`, `dims = [2,3]`: the code yields `3` (Horner from the
front, so `coords[0]` carries the largest weight), the spec's formula
yields `1`. -/
theorem index_formula_cex :
    index_from_coords [1, 0] [2, 3] = 3 ∧ indexSpecFormula [1, 0] [2, 3] = 1 ∧
      index_from_coords [1, 0] [2, 3] ≠ indexSpecFormula [1, 0] [2, 3] := by
  refine ⟨rfl, ?_, ?_⟩ <;> decide

/-- C3 (amended): the index codec encodes with the mixed-radix formula
`index = Σ_i coord[i] · Π_{j>i} dim[j]` over the common length of the
two vectors — the most-significant dimension comes first, so the last
coordinate has weight 1 — and decodes by repeated mod/div by each
dimension size in the reverse dimension order (the last dimension is
divided out first). -/
theorem index_horner_char :
    (∀ cs ds : List ℕ,
      index_from_coords cs ds
        = ∑ i ∈ Finset.range (min cs.length ds.length),
            cs.getD i 0 *
              ∏ j ∈ Finset.Ico (i + 1) (min cs.length ds.length), ds.getD j 0)
    ∧ ∀ (idx : ℕ) (ds : List ℕ) (d : ℕ),
        coords_from_index idx (ds ++ [d])
          = coords_from_index (idx / d) ds ++ [idx % d] := by
  constructor
  · intro cs ds
    rw [index_from_coords, foldl_horner]
    have hlen : (cs.zip ds).length = min cs.length ds.length := List.length_zip ..
    rw [hlen]
    refine Finset.sum_congr rfl ?_
    intro i hi
    rw [Finset.mem_range] at hi
    rw [zip_getD _ _ _ hi]
    refine congrArg (_ * ·) ?_
    refine Finset.prod_congr rfl ?_
    intro j hj
    rw [Finset.mem_Ico] at hj
    rw [zip_getD _ _ _ hj.2]
  · intro idx ds d
    simp [coords_from_index, decodeRev]

/-- C6: the index codec round-trips: for every dimension vector and
every coordinate tuple of the same length with `coords[i] < dims[i]`
for all `i`, decoding the encoded index recovers the coordinates.
(With `ℕ` as the index carrier no range restriction is needed.) -/
theorem codec_round_trip (cs ds : List ℕ) (hlen : cs.length = ds.length)
    (hb : ∀ i, i < ds.length → cs.getD i 0 < ds.getD i 0) :
    coords_from_index (index_from_coords cs ds) ds = cs := by
  have h1 : index_from_coords cs ds = encodeRev cs.reverse ds.reverse := by
    have h := index_eq_encodeRev cs.reverse ds.reverse (by simpa using hlen)
    simpa using h
  have hb' : ∀ i, i < ds.reverse.length → cs.reverse.getD i 0 < ds.reverse.getD i 0 := by
    intro i hi
    have hid : i < ds.length := by simpa using hi
    have hic : i < cs.length := by omega
    rw [getD_reverse _ _ hic, getD_reverse _ _ hid, hlen]
    exact hb _ (by omega)
  rw [coords_from_index, h1,
    decodeRev_encodeRev _ _ (by simpa using hlen) hb', List.reverse_reverse]

/-- Witness for `codec_round_trip` at `coords = [1,2]`, `dims = [3,4]`. -/
theorem codec_round_trip_wit :
    ([1, 2] : List ℕ).length = ([3, 4] : List ℕ).length
    ∧ (∀ i, i < ([3, 4] : List ℕ).length →
        ([1, 2] : List ℕ).getD i 0 < ([3, 4] : List ℕ).getD i 0)
    ∧ coords_from_index (index_from_coords [1, 2] [3, 4]) [3, 4] = [1, 2] :=
  ⟨by decide, by decide, codec_round_trip [1, 2] [3, 4] (by decide) (by decide)⟩

/-- C10: `improve` with `iterations == 0` performs no sweep: the
solver — its value array, policy array and all configuration fields —
is returned exactly unchanged (and no convergence is reported). -/
theorem improve_zero_iterations (B : Bellman) (P : Problem) (tol : ℚ) :
    improve B P 0 tol = (B, none) := rfl

/-- C2: counterexample. The constructor performs no validation: at
`nS = 0`, `nA = 0`, `discount = 2` — which the claim says must fail —
construction succeeds and yields a fully formed solver, unlike the
spec's checked construction, which rejects this input. -/
theorem construction_unchecked_cex :
    some (mkBellman 0 0 2) ≠ mkBellmanChecked 0 0 2
    ∧ mkBellman 0 0 2
        = { nS := 0, nA := 0, discount := 2, value := [], policy := [],
            transitions := [] } := by
  refine ⟨?_, rfl⟩
  decide

/-- C2 (amended): construction never fails. For every `(nS, nA, γ)`,
including zero-sized spaces and discount factors outside `[0,1]`, the
constructor succeeds, storing the configuration verbatim and
allocating `value` and `policy` zero-initialized with length `nS`;
it agrees with the spec's checked construction exactly on the valid
inputs (`nS > 0`, `nA > 0`, `γ ∈ [0,1]`). -/
theorem mkBellman_total_char (nS nA : ℕ) (g : ℚ) :
    mkBellman nS nA g
      = { nS := nS, nA := nA, discount := g,
          value := List.replicate nS 0, policy := List.replicate nS 0,
          transitions := [] }
    ∧ (mkBellmanChecked nS nA g = some (mkBellman nS nA g)
        ↔ 0 < nS ∧ 0 < nA ∧ 0 ≤ g ∧ g ≤ 1) := by
  refine ⟨rfl, ?_⟩
  rw [mkBellmanChecked]
  split_ifs with h
  · refine iff_of_false (by simp) ?_
    rintro ⟨h1, h2, h3, h4⟩
    rcases h with h | h | h | h
    · omega
    · omega
    · exact absurd h (not_lt.mpr h3)
    · exact absurd h (not_lt.mpr h4)
  · push_neg at h
    obtain ⟨h1, h2, h3, h4⟩ := h
    exact iff_of_true rfl ⟨Nat.pos_of_ne_zero h1, Nat.pos_of_ne_zero h2, h3, h4⟩

/-! ### The in-place state loop of a sweep -/

theorem sweepAcc_zero (P : Problem) (tol : ℚ) (B : Bellman) :
    sweepAcc P tol B 0 = (B, true) := rfl

theorem sweepAcc_succ (P : Problem) (tol : ℚ) (B : Bellman) (k : ℕ) :
    sweepAcc P tol B (k + 1) = stateStep P tol (sweepAcc P tol B k) k := by
  rw [sweepAcc, List.range_succ, List.foldl_append, List.foldl_cons, List.foldl_nil]
  rfl

theorem sweep_eq_sweepAcc (B : Bellman) (P : Problem) (tol : ℚ) :
    sweep B P tol = sweepAcc P tol B B.nS := rfl

/-- The state loop never touches the configuration fields. -/
theorem sweepAcc_config (P : Problem) (tol : ℚ) (B : Bellman) (k : ℕ) :
    (sweepAcc P tol B k).1.nS = B.nS ∧ (sweepAcc P tol B k).1.nA = B.nA ∧
    (sweepAcc P tol B k).1.discount = B.discount ∧
    (sweepAcc P tol B k).1.transitions = B.transitions := by
  induction k with
  | zero => exact ⟨rfl, rfl, rfl, rfl⟩
  | succ k ih =>
    rw [sweepAcc_succ]
    simpa only [stateStep] using ih

/-- The state loop never changes the lengths of the arrays. -/
theorem sweepAcc_len (P : Problem) (tol : ℚ) (B : Bellman) (k : ℕ) :
    (sweepAcc P tol B k).1.value.length = B.value.length ∧
    (sweepAcc P tol B k).1.policy.length = B.policy.length := by
  induction k with
  | zero => exact ⟨rfl, rfl⟩
  | succ k ih =>
    rw [sweepAcc_succ]
    simpa only [stateStep, List.length_set] using ih

/-- States not yet processed still hold their pre-sweep entries. -/
theorem sweepAcc_getD_of_le (P : Problem) (tol : ℚ) (B : Bellman) {k t : ℕ}
    (h : k ≤ t) :
    (sweepAcc P tol B k).1.value.getD t 0 = B.value.getD t 0 ∧
    (sweepAcc P tol B k).1.policy.getD t 0 = B.policy.getD t 0 := by
  induction k with
  | zero => exact ⟨rfl, rfl⟩
  | succ k ih =>
    have hk : k ≤ t := Nat.le_of_succ_le h
    have hne : k ≠ t := by omega
    rw [sweepAcc_succ]
    simp only [stateStep]
    rw [getD_set_ne _ _ _ hne, getD_set_ne _ _ _ hne]
    exact ih hk

/-- States already processed keep their entries for the rest of the
sweep. -/
theorem sweepAcc_getD_agree (P : Problem) (tol : ℚ) (B : Bellman) {k j : ℕ}
    (hj : j < k) :
    ∀ m, k ≤ m →
      (sweepAcc P tol B m).1.value.getD j 0 = (sweepAcc P tol B k).1.value.getD j 0 ∧
      (sweepAcc P tol B m).1.policy.getD j 0 = (sweepAcc P tol B k).1.policy.getD j 0 := by
  intro m hm
  induction m, hm using Nat.le_induction with
  | base => exact ⟨rfl, rfl⟩
  | succ m hm ih =>
    have hne : m ≠ j := by omega
    rw [sweepAcc_succ]
    simp only [stateStep]
    rw [getD_set_ne _ _ _ hne, getD_set_ne _ _ _ hne]
    exact ih

/-- What a sweep writes for state `s`: the action maximization taken
over the working solver state just before `s` is processed. -/
theorem sweep_value_char (B : Bellman) (P : Problem) (tol : ℚ)
    (hv : B.value.length = B.nS) (hp : B.policy.length = B.nS)
    {s : ℕ} (hs : s < B.nS) :
    (sweep B P tol).1.value.getD s 0
      = (bestAction (sweepAcc P tol B s).1 P s).1.unbot' 0 ∧
    (sweep B P tol).1.policy.getD s 0
      = (bestAction (sweepAcc P tol B s).1 P s).2 := by
  have hsv : s < (sweepAcc P tol B s).1.value.length := by
    rw [(sweepAcc_len P tol B s).1, hv]; exact hs
  have hsp : s < (sweepAcc P tol B s).1.policy.length := by
    rw [(sweepAcc_len P tol B s).2, hp]; exact hs
  have hagree := sweepAcc_getD_agree P tol B (Nat.lt_succ_self s) B.nS hs
  constructor
  · rw [sweep_eq_sweepAcc, hagree.1, sweepAcc_succ]
    simp only [stateStep]
    exact getD_set_self _ _ _ hsv
  · rw [sweep_eq_sweepAcc, hagree.2, sweepAcc_succ]
    simp only [stateStep]
    exact getD_set_self _ _ _ hsp

/-- Two lists of equal length whose defaulted reads agree are equal. -/
theorem ext_getD {α : Type} (d : α) (l1 l2 : List α) (hlen : l1.length = l2.length)
    (h : ∀ n, n < l1.length → l1.getD n d = l2.getD n d) : l1 = l2 := by
  apply List.ext_getElem hlen
  intro n h1 h2
  rw [← List.getD_eq_getElem l1 d h1, ← List.getD_eq_getElem l2 d h2]
  exact h n h1

/-- The working value array just before state `s` is processed: final
(post-sweep) values for states below `s`, pre-sweep values from `s`
on. -/
theorem sweepAcc_value_eq_mix (B : Bellman) (P : Problem) (tol : ℚ)
    (hv : B.value.length = B.nS) {s : ℕ} (hs : s ≤ B.nS) :
    (sweepAcc P tol B s).1.value
      = (sweep B P tol).1.value.take s ++ B.value.drop s := by
  have hA : (sweepAcc P tol B s).1.value.length = B.nS := by
    rw [(sweepAcc_len P tol B s).1, hv]
  have hS : (sweep B P tol).1.value.length = B.nS := by
    rw [sweep_eq_sweepAcc, (sweepAcc_len P tol B B.nS).1, hv]
  apply ext_getD 0
  · rw [hA, List.length_append, List.length_take, List.length_drop, hS, hv]
    omega
  · intro n hn
    rw [hA] at hn
    by_cases hns : n < s
    · have htake : n < ((sweep B P tol).1.value.take s).length := by
        rw [List.length_take, hS]; omega
      have e2 : ((sweep B P tol).1.value.take s ++ B.value.drop s).getD n 0
          = (sweep B P tol).1.value.getD n 0 := by
        rw [List.getD_append _ _ _ _ htake]
        calc ((sweep B P tol).1.value.take s).getD n 0
            = ((sweep B P tol).1.value.take s)[n] := List.getD_eq_getElem _ _ htake
          _ = (sweep B P tol).1.value[n] := List.getElem_take _
          _ = (sweep B P tol).1.value.getD n 0 :=
              (List.getD_eq_getElem _ _ (by rw [hS]; omega)).symm
      rw [e2, sweep_eq_sweepAcc]
      exact ((sweepAcc_getD_agree P tol B hns B.nS hs).1).symm
    · have hsn : s ≤ n := le_of_not_lt hns
      have hlt : ((sweep B P tol).1.value.take s).length ≤ n := by
        rw [List.length_take, hS]; omega
      have hdrop : n - s < (B.value.drop s).length := by
        rw [List.length_drop, hv]; omega
      have e2 : ((sweep B P tol).1.value.take s ++ B.value.drop s).getD n 0
          = B.value.getD n 0 := by
        rw [List.getD_append_right _ _ _ _ hlt]
        have hts : ((sweep B P tol).1.value.take s).length = s := by
          rw [List.length_take, hS]; omega
        rw [hts]
        calc (B.value.drop s).getD (n - s) 0
            = (B.value.drop s)[n - s] := List.getD_eq_getElem _ _ hdrop
          _ = B.value[s + (n - s)] := List.getElem_drop _
          _ = B.value.getD (s + (n - s)) 0 :=
              (List.getD_eq_getElem _ _ (by rw [hv]; omega)).symm
          _ = B.value.getD n 0 := by rw [Nat.add_sub_cancel' hsn]
      rw [e2]
      exact (sweepAcc_getD_of_le P tol B hsn).1

/-- The action maximization only reads the configuration and the value
array, never the policy. -/
theorem bestAction_congr {X Y : Bellman} (P : Problem) (s : ℕ)
    (h1 : X.nS = Y.nS) (h2 : X.nA = Y.nA) (h3 : X.discount = Y.discount)
    (h4 : X.transitions = Y.transitions) (h5 : X.value = Y.value) :
    bestAction X P s = bestAction Y P s := by
  unfold bestAction bestStep candidate expectation
  rw [h1, h2, h3, h4, h5]

/-! ### Evaluation helpers for the `-INF` sentinel at numeric literals -/

theorem wb_bot_lt_zero : (⊥ : WithBot ℚ) < 0 := WithBot.bot_lt_coe 0

theorem wb_bot_lt_one : (⊥ : WithBot ℚ) < 1 := WithBot.bot_lt_coe 1

theorem wb_bot_lt_ofNat (n : ℕ) [n.AtLeastTwo] :
    (⊥ : WithBot ℚ) < OfNat.ofNat n := WithBot.bot_lt_coe _

theorem wb_unbot_zero (d : ℚ) : WithBot.unbot' d (0 : WithBot ℚ) = 0 := rfl

theorem wb_unbot_one (d : ℚ) : WithBot.unbot' d (1 : WithBot ℚ) = 1 := rfl

theorem wb_unbot_ofNat (d : ℚ) (n : ℕ) [n.AtLeastTwo] :
    WithBot.unbot' d (OfNat.ofNat n : WithBot ℚ) = OfNat.ofNat n := rfl

theorem wb_one_lt_coe (q : ℚ) :
    ((1 : WithBot ℚ) < (q : WithBot ℚ)) = (1 < q) := by
  rw [← WithBot.coe_one, WithBot.coe_lt_coe]

theorem wb_zero_lt_coe (q : ℚ) :
    ((0 : WithBot ℚ) < (q : WithBot ℚ)) = (0 < q) := by
  rw [← WithBot.coe_zero, WithBot.coe_lt_coe]

theorem wb_ofNat_lt_coe (n : ℕ) [n.AtLeastTwo] (q : ℚ) :
    ((OfNat.ofNat n : WithBot ℚ) < (q : WithBot ℚ)) = (OfNat.ofNat n < q) := by
  rw [← WithBot.coe_ofNat, WithBot.coe_lt_coe]

/-- C1: counterexample. The implemented sweep is not double-buffered.
On a two-state, one-action problem where every transition returns to
state 0 and only state 0 earns reward, one `improve` sweep from the
zero value array yields `value = [1, 1]` — state 1's expectation reads
state 0's value already updated within the same sweep — while the
double-buffered (Jacobi) reference sweep of the spec yields
`value = [1, 0]`. -/
theorem improve_not_jacobi_cex :
    (improve cexB cexP 1 0).1.value = [1, 1]
    ∧ (jacobiSweep cexB cexP).value = [1, 0]
    ∧ (improve cexB cexP 1 0).1.value ≠ (jacobiSweep cexB cexP).value := by
  have h1 : (improve cexB cexP 1 0).1.value = [1, 1] := by
    norm_num [improve, improveFrom, sweep, sweepAcc, stateStep, bestAction,
      bestStep, candidate, expectation, cexB, cexP, List.range_succ,
      wb_bot_lt_zero, wb_bot_lt_one, wb_bot_lt_ofNat, wb_unbot_zero,
      wb_unbot_one, wb_unbot_ofNat, wb_one_lt_coe, wb_zero_lt_coe,
      wb_ofNat_lt_coe, WithBot.unbot'_coe]
  have h2 : (jacobiSweep cexB cexP).value = [1, 0] := by
    norm_num [jacobiSweep, bestAction, bestStep, candidate, expectation,
      cexB, cexP, List.range_succ, wb_bot_lt_zero, wb_bot_lt_one,
      wb_bot_lt_ofNat, wb_unbot_zero, wb_unbot_one, wb_unbot_ofNat,
      wb_one_lt_coe, wb_zero_lt_coe, wb_ofNat_lt_coe, WithBot.unbot'_coe]
  refine ⟨h1, h2, ?_⟩
  rw [h1, h2]
  simp

/-- C1 (amended): `improve`'s sweeps are in-place (Gauss-Seidel), not
synchronous (Jacobi): the expectation for state `s` is computed from a
value array holding the already-updated (final) values for states
below `s` and the pre-sweep values from `s` on, so updates written to
earlier-indexed states within the same sweep do affect the
expectations computed for later states. -/
theorem sweep_gauss_seidel_char (B : Bellman) (P : Problem) (tol : ℚ)
    (hv : B.value.length = B.nS) (hp : B.policy.length = B.nS)
    (hA : 0 < B.nA) :
    ∀ s, s < B.nS →
      (sweep B P tol).1.value.getD s 0
        = (bestAction
            { B with value := (sweep B P tol).1.value.take s ++ B.value.drop s }
            P s).1.unbot' 0
      ∧ (sweep B P tol).1.policy.getD s 0
        = (bestAction
            { B with value := (sweep B P tol).1.value.take s ++ B.value.drop s }
            P s).2 := by
  intro s hs
  have hcg := sweepAcc_config P tol B s
  have hmix := sweepAcc_value_eq_mix B P tol hv (le_of_lt hs)
  have hbc : bestAction (sweepAcc P tol B s).1 P s
      = bestAction
          { B with value := (sweep B P tol).1.value.take s ++ B.value.drop s }
          P s :=
    bestAction_congr P s hcg.1 hcg.2.1 hcg.2.2.1 hcg.2.2.2 hmix
  obtain ⟨h1, h2⟩ := sweep_value_char B P tol hv hp hs
  exact ⟨h1.trans (by rw [hbc]), h2.trans (by rw [hbc])⟩

/-- Witness for `sweep_gauss_seidel_char` on `cexB`/`cexP` at state 1,
where the in-place behaviour is visible. -/
theorem sweep_gauss_seidel_char_wit :
    cexB.value.length = cexB.nS ∧ cexB.policy.length = cexB.nS
    ∧ 0 < cexB.nA ∧ 1 < cexB.nS
    ∧ ((sweep cexB cexP 0).1.value.getD 1 0
        = (bestAction
            { cexB with
              value := (sweep cexB cexP 0).1.value.take 1 ++ cexB.value.drop 1 }
            cexP 1).1.unbot' 0
      ∧ (sweep cexB cexP 0).1.policy.getD 1 0
        = (bestAction
            { cexB with
              value := (sweep cexB cexP 0).1.value.take 1 ++ cexB.value.drop 1 }
            cexP 1).2) :=
  ⟨rfl, rfl, by decide, by decide,
    sweep_gauss_seidel_char cexB cexP 0 rfl rfl (by decide) 1 (by decide)⟩

/-! ### The action maximization -/

/-- Invariant of the action loop: after scanning actions `0..k-1`
(`k ≥ 1`), the running pair holds the maximal candidate value and the
least action index attaining it. -/
theorem bestFold (X : Bellman) (P : Problem) (s : ℕ) :
    ∀ k, 0 < k →
      ((List.range k).foldl (bestStep X P s) (⊥, 0)).2 < k
      ∧ ((List.range k).foldl (bestStep X P s) (⊥, 0)).1
          = (candidate X P s ((List.range k).foldl (bestStep X P s) (⊥, 0)).2 :
              WithBot ℚ)
      ∧ (∀ a, a < k →
          candidate X P s a
            ≤ candidate X P s ((List.range k).foldl (bestStep X P s) (⊥, 0)).2)
      ∧ ∀ b, b < ((List.range k).foldl (bestStep X P s) (⊥, 0)).2 →
          candidate X P s b
            < candidate X P s ((List.range k).foldl (bestStep X P s) (⊥, 0)).2 := by
  intro k
  induction k with
  | zero => intro h; exact absurd h (lt_irrefl 0)
  | succ k ih =>
    intro _
    rw [List.range_succ, List.foldl_append, List.foldl_cons, List.foldl_nil]
    rcases Nat.eq_zero_or_pos k with hk | hk
    · subst hk
      simp only [List.range_zero, List.foldl_nil, bestStep]
      rw [if_pos (WithBot.bot_lt_coe _)]
      refine ⟨Nat.zero_lt_one, rfl, ?_, ?_⟩
      · intro a ha
        rw [Nat.lt_one_iff] at ha
        subst ha
        exact le_refl _
      · intro b hb
        exact absurd hb (Nat.not_lt_zero b)
    · obtain ⟨ih1, ih2, ih3, ih4⟩ := ih hk
      simp only [bestStep]
      by_cases hlt :
          ((List.range k).foldl (bestStep X P s) (⊥, 0)).1
            < (candidate X P s k : WithBot ℚ)
      · rw [if_pos hlt]
        have hck :
            candidate X P s ((List.range k).foldl (bestStep X P s) (⊥, 0)).2
              < candidate X P s k := by
          rw [ih2] at hlt
          exact WithBot.coe_lt_coe.mp hlt
        refine ⟨Nat.lt_succ_self k, rfl, ?_, ?_⟩
        · intro a ha
          rcases (Nat.lt_succ_iff.mp ha).lt_or_eq with h | h
          · exact le_trans (ih3 a h) (le_of_lt hck)
          · subst h
            exact le_refl _
        · intro b hb
          exact lt_of_le_of_lt (ih3 b hb) hck
      · rw [if_neg hlt]
        have hke :
            candidate X P s k
              ≤ candidate X P s ((List.range k).foldl (bestStep X P s) (⊥, 0)).2 := by
          rw [ih2] at hlt
          exact WithBot.coe_le_coe.mp (not_lt.mp hlt)
        refine ⟨Nat.lt_succ_of_lt ih1, ih2, ?_, ih4⟩
        intro a ha
        rcases (Nat.lt_succ_iff.mp ha).lt_or_eq with h | h
        · exact ih3 a h
        · subst h
          exact hke

/-- C5: in the per-state action maximization, the running best starts
at `-INF` (so with at least one action the result is a genuine, finite
candidate), the selected action is an argmax of
`Q(s,a) = reward(s,a) + γ·E`, and ties break to the lowest action
index: every action strictly below the selected one has a strictly
smaller candidate value, so when two actions tie the lower index
wins. -/
theorem bestAction_argmax (X : Bellman) (P : Problem) (s : ℕ) (hA : 0 < X.nA) :
    (bestAction X P s).2 < X.nA
    ∧ (bestAction X P s).1
        = (candidate X P s (bestAction X P s).2 : WithBot ℚ)
    ∧ (∀ a, a < X.nA →
        candidate X P s a ≤ candidate X P s (bestAction X P s).2)
    ∧ ∀ b, b < (bestAction X P s).2 →
        candidate X P s b < candidate X P s (bestAction X P s).2 :=
  bestFold X P s X.nA hA

/-- Witness for `bestAction_argmax` on `witB`/`witP` at state 0. -/
theorem bestAction_argmax_wit :
    0 < witB.nA
    ∧ ((bestAction witB witP 0).2 < witB.nA
      ∧ (bestAction witB witP 0).1
          = (candidate witB witP 0 (bestAction witB witP 0).2 : WithBot ℚ)
      ∧ (∀ a, a < witB.nA →
          candidate witB witP 0 a
            ≤ candidate witB witP 0 (bestAction witB witP 0).2)
      ∧ ∀ b, b < (bestAction witB witP 0).2 →
          candidate witB witP 0 b
            < candidate witB witP 0 (bestAction witB witP 0).2) :=
  ⟨by decide, bestAction_argmax witB witP 0 (by decide)⟩

/-! ### Accessors and invariants -/

/-- A checked lookup within bounds yields the stored element. -/
theorem get?_eq_some_getD {α : Type} (l : List α) (d : α) {n : ℕ}
    (h : n < l.length) : l.get? n = some (l.getD n d) := by
  rw [List.get?_eq_get h, List.getD_eq_getElem _ _ h]
  simp

/-- C8: the single-element accessors are bounds-checked. For every
state index `s < nS` they return the current `value[s]` / `policy[s]`;
for every `s ≥ nS` the call fails with an out-of-range error (modelled
`none`). The accessors are pure functions of the solver — they return
no modified solver, so the solver state is unchanged by construction
of the embedding. -/
theorem accessors_bounds_checked (B : Bellman) (s : ℕ)
    (hv : B.value.length = B.nS) (hp : B.policy.length = B.nS) :
    (s < B.nS →
      get_value_at B s = some (B.value.getD s 0)
      ∧ get_action_at B s = some (B.policy.getD s 0))
    ∧ (B.nS ≤ s → get_value_at B s = none ∧ get_action_at B s = none) := by
  constructor
  · intro hs
    exact ⟨get?_eq_some_getD B.value 0 (by omega),
      get?_eq_some_getD B.policy 0 (by omega)⟩
  · intro hs
    exact ⟨List.get?_eq_none.mpr (by omega), List.get?_eq_none.mpr (by omega)⟩

/-- Witness for `accessors_bounds_checked` on `witB` at states 1 and
beyond. -/
theorem accessors_bounds_checked_wit :
    witB.value.length = witB.nS ∧ witB.policy.length = witB.nS
    ∧ ((1 < witB.nS →
        get_value_at witB 1 = some (witB.value.getD 1 0)
        ∧ get_action_at witB 1 = some (witB.policy.getD 1 0))
      ∧ (witB.nS ≤ 1 → get_value_at witB 1 = none ∧ get_action_at witB 1 = none))
    ∧ ((2 < witB.nS →
        get_value_at witB 2 = some (witB.value.getD 2 0)
        ∧ get_action_at witB 2 = some (witB.policy.getD 2 0))
      ∧ (witB.nS ≤ 2 → get_value_at witB 2 = none ∧ get_action_at witB 2 = none)) :=
  ⟨rfl, rfl, accessors_bounds_checked witB 1 rfl rfl,
    accessors_bounds_checked witB 2 rfl rfl⟩

/-- The action index kept by the action loop is a legal action. -/
theorem sweepAcc_policy_bound (P : Problem) (tol : ℚ) (B : Bellman)
    (hA : 0 < B.nA) (hpol : ∀ x ∈ B.policy, x < B.nA) (k : ℕ) :
    ∀ x ∈ (sweepAcc P tol B k).1.policy, x < B.nA := by
  induction k with
  | zero => exact hpol
  | succ k ih =>
    rw [sweepAcc_succ]
    simp only [stateStep]
    intro x hx
    rcases List.mem_or_eq_of_mem_set hx with h | h
    · exact ih x h
    · subst h
      have hA' : 0 < (sweepAcc P tol B k).1.nA := by
        rw [(sweepAcc_config P tol B k).2.1]; exact hA
      have hlt : (bestAction (sweepAcc P tol B k).1 P k).2
          < (sweepAcc P tol B k).1.nA :=
        (bestFold (sweepAcc P tol B k).1 P k (sweepAcc P tol B k).1.nA hA').1
      rw [← (sweepAcc_config P tol B k).2.1]
      exact hlt

/-- A sweep preserves the configuration, the array lengths, and the
legality of every policy entry. -/
theorem sweep_preserves (B : Bellman) (P : Problem) (tol : ℚ)
    (hv : B.value.length = B.nS) (hp : B.policy.length = B.nS)
    (hA : 0 < B.nA) (hpol : ∀ x ∈ B.policy, x < B.nA) :
    (sweep B P tol).1.nS = B.nS ∧ (sweep B P tol).1.nA = B.nA ∧
    (sweep B P tol).1.discount = B.discount ∧
    (sweep B P tol).1.transitions = B.transitions ∧
    (sweep B P tol).1.value.length = B.nS ∧
    (sweep B P tol).1.policy.length = B.nS ∧
    ∀ x ∈ (sweep B P tol).1.policy, x < B.nA := by
  rw [sweep_eq_sweepAcc]
  have hc := sweepAcc_config P tol B B.nS
  have hl := sweepAcc_len P tol B B.nS
  exact ⟨hc.1, hc.2.1, hc.2.2.1, hc.2.2.2, by rw [hl.1, hv], by rw [hl.2, hp],
    sweepAcc_policy_bound P tol B hA hpol B.nS⟩

/-- The whole iteration loop preserves the configuration, the array
lengths, and the legality of every policy entry. -/
theorem improveFrom_preserves (P : Problem) (tol : ℚ) :
    ∀ (rem : ℕ) (B : Bellman) (i : ℕ),
      B.value.length = B.nS → B.policy.length = B.nS → 0 < B.nA →
      (∀ x ∈ B.policy, x < B.nA) →
      (improveFrom P tol B i rem).1.nS = B.nS
      ∧ (improveFrom P tol B i rem).1.nA = B.nA
      ∧ (improveFrom P tol B i rem).1.discount = B.discount
      ∧ (improveFrom P tol B i rem).1.transitions = B.transitions
      ∧ (improveFrom P tol B i rem).1.value.length = B.nS
      ∧ (improveFrom P tol B i rem).1.policy.length = B.nS
      ∧ ∀ x ∈ (improveFrom P tol B i rem).1.policy, x < B.nA := by
  intro rem
  induction rem with
  | zero =>
    intro B i hv hp hA hpol
    exact ⟨rfl, rfl, rfl, rfl, hv, hp, hpol⟩
  | succ rem ih =>
    intro B i hv hp hA hpol
    have hs := sweep_preserves B P tol hv hp hA hpol
    simp only [improveFrom]
    by_cases hc : (sweep B P tol).2 = true
    · rw [if_pos hc]
      exact hs
    · rw [if_neg hc]
      obtain ⟨g1, g2, g3, g4, g5, g6, g7⟩ :=
        ih (sweep B P tol).1 (i + 1)
          (by rw [hs.2.2.2.2.1, hs.1]) (by rw [hs.2.2.2.2.2.1, hs.1])
          (by rw [hs.2.1]; exact hA)
          (fun x hx => by rw [hs.2.1]; exact hs.2.2.2.2.2.2 x hx)
      refine ⟨g1.trans hs.1, g2.trans hs.2.1, g3.trans hs.2.2.1,
        g4.trans hs.2.2.2.1, g5.trans hs.1, g6.trans hs.1, ?_⟩
      intro x hx
      have := g7 x hx
      rw [hs.2.1] at this
      exact this

/-- C9: invariants kept by every operation. Construction allocates
`value` and `policy` with length `nS` and zero entries (so with
`nA ≥ 1` every policy entry is a valid action index), and `improve`
preserves the configuration, keeps both arrays at length `nS`, and —
when `nA ≥ 1` — keeps every policy entry inside `[0, nA)`: each sweep
writes only a `best_action` drawn from the loop over `a < nA`. -/
theorem policy_value_invariants (B : Bellman) (P : Problem) (n : ℕ) (tol : ℚ)
    (hv : B.value.length = B.nS) (hp : B.policy.length = B.nS)
    (hA : 0 < B.nA) (hpol : ∀ x ∈ B.policy, x < B.nA) :
    (∀ (nS nA : ℕ) (g : ℚ),
      (mkBellman nS nA g).value.length = nS
      ∧ (mkBellman nS nA g).policy.length = nS
      ∧ ∀ x ∈ (mkBellman nS nA g).policy, x = 0)
    ∧ (improve B P n tol).1.nS = B.nS
    ∧ (improve B P n tol).1.nA = B.nA
    ∧ (improve B P n tol).1.value.length = B.nS
    ∧ (improve B P n tol).1.policy.length = B.nS
    ∧ ∀ x ∈ (improve B P n tol).1.policy, x < B.nA := by
  have h := improveFrom_preserves P tol n B 1 hv hp hA hpol
  refine ⟨?_, h.1, h.2.1, h.2.2.2.2.1, h.2.2.2.2.2.1, h.2.2.2.2.2.2⟩
  intro nS nA g
  refine ⟨List.length_replicate nS 0, List.length_replicate nS 0, ?_⟩
  intro x hx
  exact (List.mem_replicate.mp hx).2

/-- Witness for `policy_value_invariants` on `cexB`/`cexP` with two
iterations. -/
theorem policy_value_invariants_wit :
    cexB.value.length = cexB.nS ∧ cexB.policy.length = cexB.nS
    ∧ 0 < cexB.nA ∧ (∀ x ∈ cexB.policy, x < cexB.nA)
    ∧ ((∀ (nS nA : ℕ) (g : ℚ),
        (mkBellman nS nA g).value.length = nS
        ∧ (mkBellman nS nA g).policy.length = nS
        ∧ ∀ x ∈ (mkBellman nS nA g).policy, x = 0)
      ∧ (improve cexB cexP 2 0).1.nS = cexB.nS
      ∧ (improve cexB cexP 2 0).1.nA = cexB.nA
      ∧ (improve cexB cexP 2 0).1.value.length = cexB.nS
      ∧ (improve cexB cexP 2 0).1.policy.length = cexB.nS
      ∧ ∀ x ∈ (improve cexB cexP 2 0).1.policy, x < cexB.nA) :=
  ⟨rfl, rfl, by decide, by decide,
    policy_value_invariants cexB cexP 2 0 rfl rfl (by decide) (by decide)⟩

/-! ### The convergence flag and the iteration loop -/

/-- The sweep's converged flag after processing states `0..k-1` is the
conjunction, over those states, of "this state's pre-sweep value is
within tolerance of the value the sweep wrote for it". -/
theorem sweepAcc_flag_iff (B : Bellman) (P : Problem) (tol : ℚ)
    (hv : B.value.length = B.nS) (hp : B.policy.length = B.nS) :
    ∀ k, k ≤ B.nS →
      ((sweepAcc P tol B k).2 = true ↔
        ∀ j, j < k →
          |B.value.getD j 0 - (sweep B P tol).1.value.getD j 0| < tol) := by
  intro k
  induction k with
  | zero =>
    intro _
    constructor
    · intro _ j hj
      exact absurd hj (Nat.not_lt_zero j)
    · intro _
      rfl
  | succ k ih =>
    intro hk
    have hk' : k ≤ B.nS := Nat.le_of_succ_le hk
    have hks : k < B.nS := hk
    rw [sweepAcc_succ]
    simp only [stateStep, Bool.and_eq_true, decide_eq_true_eq]
    rw [ih hk']
    have e1 : (sweepAcc P tol B k).1.value.getD k 0 = B.value.getD k 0 :=
      (sweepAcc_getD_of_le P tol B (le_refl k)).1
    have e2 : (bestAction (sweepAcc P tol B k).1 P k).1.unbot' 0
        = (sweep B P tol).1.value.getD k 0 :=
      ((sweep_value_char B P tol hv hp hks).1).symm
    rw [e1, e2]
    constructor
    · rintro ⟨hall, hcur⟩ j hj
      rcases (Nat.lt_succ_iff.mp hj).lt_or_eq with h | h
      · exact hall j h
      · subst h
        exact hcur
    · intro hall
      exact ⟨fun j hj => hall j (Nat.lt_succ_of_lt hj),
        hall k (Nat.lt_succ_self k)⟩

/-- Sweeping `k + 1` times from `B` is sweeping `k` times from the
once-swept solver. -/
theorem sweepIter_shift (P : Problem) (tol : ℚ) (B : Bellman) :
    ∀ k, sweepIter P tol B (k + 1) = sweepIter P tol (sweep B P tol).1 k := by
  intro k
  induction k with
  | zero => rfl
  | succ k ih =>
    show (sweep (sweepIter P tol B (k + 1)) P tol).1
        = (sweep (sweepIter P tol (sweep B P tol).1 k) P tol).1
    rw [ih]

/-- When the iteration loop exhausts its budget it has run every sweep
(none of which converged) and returns the fully swept solver. -/
theorem improveFrom_none (P : Problem) (tol : ℚ) :
    ∀ (rem : ℕ) (B : Bellman) (i : ℕ),
      (improveFrom P tol B i rem).2 = none →
      (improveFrom P tol B i rem).1 = sweepIter P tol B rem
      ∧ ∀ j, j < rem → (sweep (sweepIter P tol B j) P tol).2 = false := by
  intro rem
  induction rem with
  | zero =>
    intro B i _
    exact ⟨rfl, fun j hj => absurd hj (Nat.not_lt_zero j)⟩
  | succ rem ih =>
    intro B i h
    simp only [improveFrom] at h ⊢
    by_cases hc : (sweep B P tol).2 = true
    · rw [if_pos hc] at h
      exact absurd h (by simp)
    · rw [if_neg hc] at h ⊢
      obtain ⟨h1, h2⟩ := ih (sweep B P tol).1 (i + 1) h
      constructor
      · rw [h1, ← sweepIter_shift]
      · intro j hj
        cases j with
        | zero => simpa using hc
        | succ j =>
          rw [sweepIter_shift]
          exact h2 j (by omega)

/-- When the iteration loop reports convergence at iteration `r`
(having started counting at `i`), the sweep numbered `r` is the first
converged one and the loop stopped right after it. -/
theorem improveFrom_some (P : Problem) (tol : ℚ) :
    ∀ (rem : ℕ) (B : Bellman) (i r : ℕ),
      (improveFrom P tol B i rem).2 = some r →
      i ≤ r ∧ r < i + rem
      ∧ (improveFrom P tol B i rem).1 = sweepIter P tol B (r - i + 1)
      ∧ (sweep (sweepIter P tol B (r - i)) P tol).2 = true
      ∧ ∀ j, j < r - i → (sweep (sweepIter P tol B j) P tol).2 = false := by
  intro rem
  induction rem with
  | zero =>
    intro B i r h
    exact absurd h (by simp [improveFrom])
  | succ rem ih =>
    intro B i r h
    simp only [improveFrom] at h ⊢
    by_cases hc : (sweep B P tol).2 = true
    · rw [if_pos hc] at h ⊢
      have hr : i = r := Option.some.inj h
      subst hr
      rw [Nat.sub_self]
      refine ⟨le_refl i, by omega, rfl, hc, ?_⟩
      intro j hj
      exact absurd hj (Nat.not_lt_zero j)
    · rw [if_neg hc] at h ⊢
      obtain ⟨g1, g2, g3, g4, g5⟩ := ih (sweep B P tol).1 (i + 1) r h
      have hsub : r - i = (r - (i + 1)) + 1 := by omega
      refine ⟨by omega, by omega, ?_, ?_, ?_⟩
      · rw [hsub, sweepIter_shift]
        exact g3
      · rw [hsub, sweepIter_shift]
        exact g4
      · intro j hj
        rw [hsub] at hj
        cases j with
        | zero => simpa using hc
        | succ j =>
          rw [sweepIter_shift]
          exact g5 j (by omega)

/-- C4: a sweep is declared converged exactly when every state's new
value is within `tolerance` of the value that state held before the
sweep began; on convergence `improve` stops early and reports the
iteration count `i` at which convergence occurred (the `i`-th sweep is
the first converged one), and otherwise it runs all `maxIterations`
sweeps and reports non-convergence, leaving the fully swept
(best-effort) arrays in place. -/
theorem improve_convergence_char (B : Bellman) (P : Problem) (tol : ℚ)
    (hv : B.value.length = B.nS) (hp : B.policy.length = B.nS)
    (hA : 0 < B.nA) :
    ((sweep B P tol).2 = true ↔
      ∀ s, s < B.nS →
        |B.value.getD s 0 - (sweep B P tol).1.value.getD s 0| < tol)
    ∧ (∀ n i, (improve B P n tol).2 = some i →
        1 ≤ i ∧ i ≤ n
        ∧ (improve B P n tol).1 = sweepIter P tol B i
        ∧ (sweep (sweepIter P tol B (i - 1)) P tol).2 = true
        ∧ ∀ j, j + 1 < i → (sweep (sweepIter P tol B j) P tol).2 = false)
    ∧ ∀ n, (improve B P n tol).2 = none →
        (improve B P n tol).1 = sweepIter P tol B n
        ∧ ∀ j, j < n → (sweep (sweepIter P tol B j) P tol).2 = false := by
  refine ⟨?_, ?_, ?_⟩
  · exact sweepAcc_flag_iff B P tol hv hp B.nS (le_refl _)
  · intro n i h
    obtain ⟨g1, g2, g3, g4, g5⟩ := improveFrom_some P tol n B 1 i h
    have hsub : i - 1 + 1 = i := by omega
    rw [hsub] at g3
    refine ⟨g1, by omega, g3, g4, ?_⟩
    intro j hj
    exact g5 j (by omega)
  · intro n h
    exact improveFrom_none P tol n B 1 h

/-- Witness for `improve_convergence_char` on `cexB`/`cexP`. -/
theorem improve_convergence_char_wit :
    cexB.value.length = cexB.nS ∧ cexB.policy.length = cexB.nS
    ∧ 0 < cexB.nA
    ∧ (((sweep cexB cexP 0).2 = true ↔
        ∀ s, s < cexB.nS →
          |cexB.value.getD s 0 - (sweep cexB cexP 0).1.value.getD s 0| < 0)
      ∧ (∀ n i, (improve cexB cexP n 0).2 = some i →
          1 ≤ i ∧ i ≤ n
          ∧ (improve cexB cexP n 0).1 = sweepIter cexP 0 cexB i
          ∧ (sweep (sweepIter cexP 0 cexB (i - 1)) cexP 0).2 = true
          ∧ ∀ j, j + 1 < i →
              (sweep (sweepIter cexP 0 cexB j) cexP 0).2 = false)
      ∧ ∀ n, (improve cexB cexP n 0).2 = none →
          (improve cexB cexP n 0).1 = sweepIter cexP 0 cexB n
          ∧ ∀ j, j < n → (sweep (sweepIter cexP 0 cexB j) cexP 0).2 = false) :=
  ⟨rfl, rfl, by decide, improve_convergence_char cexB cexP 0 rfl rfl (by decide)⟩

/-! ### Dense and sparse expectation agree -/

/-- Folding additions of mapped elements is the accumulated sum. -/
theorem foldl_add_map {α : Type} (f : α → ℚ) (l : List α) :
    ∀ c : ℚ, l.foldl (fun e x => e + f x) c = c + (l.map f).sum := by
  induction l with
  | nil =>
    intro c
    simp
  | cons x xs ih =>
    intro c
    simp only [List.foldl_cons, List.map_cons, List.sum_cons]
    rw [ih]
    ring

/-- The dense accumulation loop is a sum over all states. -/
theorem range_foldl_sum (g : ℕ → ℚ) (n : ℕ) :
    (List.range n).foldl (fun e i => e + g i) 0 = ∑ i ∈ Finset.range n, g i := by
  induction n with
  | zero => simp
  | succ n ih =>
    rw [List.range_succ, List.foldl_append, List.foldl_cons, List.foldl_nil,
      Finset.sum_range_succ, ih]

/-- A sparse list holding exactly the nonzero entries of `dyn` sums to
the dense sum. -/
theorem sparse_sum_eq (L : List (ℕ × ℚ)) (dyn : ℕ → ℚ) (v : List ℚ) (nS : ℕ)
    (hnd : (L.map Prod.fst).Nodup)
    (hmem : ∀ p ∈ L, p.1 < nS ∧ p.2 = dyn p.1 ∧ p.2 ≠ 0)
    (hcov : ∀ s1, s1 < nS → dyn s1 ≠ 0 → s1 ∈ L.map Prod.fst) :
    L.foldl (fun e sp => e + sp.2 * v.getD sp.1 0) 0
      = ∑ s1 ∈ Finset.range nS, dyn s1 * v.getD s1 0 := by
  rw [foldl_add_map (fun sp => sp.2 * v.getD sp.1 0) L 0, zero_add]
  have hmap : L.map (fun sp => sp.2 * v.getD sp.1 0)
      = (L.map Prod.fst).map (fun k => dyn k * v.getD k 0) := by
    rw [List.map_map]
    refine List.map_congr_left ?_
    intro p hp
    have h2 := (hmem p hp).2.1
    simp only [Function.comp_apply]
    rw [h2]
  rw [hmap, ← List.sum_toFinset _ hnd]
  refine Finset.sum_subset ?_ ?_
  · intro x hx
    rw [List.mem_toFinset] at hx
    rcases List.mem_map.mp hx with ⟨p, hp, hpe⟩
    rw [Finset.mem_range, ← hpe]
    exact (hmem p hp).1
  · intro x hx hnx
    rw [List.mem_toFinset] at hnx
    by_cases hd : dyn x = 0
    · rw [hd, zero_mul]
    · exact absurd (hcov x (Finset.mem_range.mp hx) hd) hnx

/-- Under the simulation relation, the sparse expectation of `X`
equals the dense expectation of `Y`. -/
theorem expectation_rel (B : Bellman) (P : Problem) (X Y : Bellman)
    (hm : SparseMatches B P) (hrel : SimRel B X Y) {s a : ℕ}
    (hs : s < B.nS) (ha : a < B.nA) :
    expectation X P s a = expectation Y P s a := by
  obtain ⟨hXS, hXA, hXd, hXt, hYS, hYA, hYd, hYt, hval, hpol⟩ := hrel
  obtain ⟨hlen, hsa⟩ := hm
  have hdense : expectation Y P s a
      = ∑ s1 ∈ Finset.range B.nS, P.dynamic s a s1 * Y.value.getD s1 0 := by
    rw [expectation, if_neg (by rw [hYt]; simp), hYS]
    exact range_foldl_sum _ _
  have hnz : X.transitions.length ≠ 0 := by
    rw [hXt, hlen]
    omega
  rw [expectation, if_pos hnz, hdense, hXt, hval]
  obtain ⟨hnd, hpm, hcov⟩ := (hsa s hs).2 a ha
  exact sparse_sum_eq _ _ _ _ hnd hpm hcov

/-- Under the simulation relation, the action maximization agrees. -/
theorem bestAction_rel (B : Bellman) (P : Problem) (X Y : Bellman)
    (hm : SparseMatches B P) (hrel : SimRel B X Y) {s : ℕ} (hs : s < B.nS) :
    bestAction X P s = bestAction Y P s := by
  have hcand : ∀ a, a < B.nA → candidate X P s a = candidate Y P s a := by
    intro a ha
    rw [candidate, candidate, hrel.2.2.1, hrel.2.2.2.2.2.2.1,
      expectation_rel B P X Y hm hrel hs ha]
  rw [bestAction, bestAction, hrel.2.1, hrel.2.2.2.2.2.1]
  refine List.foldl_ext _ _ _ ?_
  intro acc b hb
  rw [List.mem_range] at hb
  simp only [bestStep, hcand b hb]

/-- Under the simulation relation, one state update agrees on both
sides and produces related solvers with equal flags. -/
theorem stateStep_rel (B : Bellman) (P : Problem) (tol : ℚ) (X Y : Bellman)
    (fX fY : Bool) (hf : fX = fY) (hm : SparseMatches B P)
    (hrel : SimRel B X Y) {s : ℕ} (hs : s < B.nS) :
    SimRel B (stateStep P tol (X, fX) s).1 (stateStep P tol (Y, fY) s).1
    ∧ (stateStep P tol (X, fX) s).2 = (stateStep P tol (Y, fY) s).2 := by
  have hba := bestAction_rel B P X Y hm hrel hs
  obtain ⟨hXS, hXA, hXd, hXt, hYS, hYA, hYd, hYt, hval, hpol⟩ := hrel
  simp only [stateStep]
  constructor
  · exact ⟨hXS, hXA, hXd, hXt, hYS, hYA, hYd, hYt,
      by rw [hval, hba], by rw [hpol, hba]⟩
  · rw [hval, hba, hf]

/-- The partially completed sweeps stay related with equal flags. -/
theorem sweepAcc_rel (B : Bellman) (P : Problem) (tol : ℚ) (X Y : Bellman)
    (hm : SparseMatches B P) (hrel : SimRel B X Y) :
    ∀ k, k ≤ B.nS →
      SimRel B (sweepAcc P tol X k).1 (sweepAcc P tol Y k).1
      ∧ (sweepAcc P tol X k).2 = (sweepAcc P tol Y k).2 := by
  intro k
  induction k with
  | zero =>
    intro _
    exact ⟨hrel, rfl⟩
  | succ k ih =>
    intro hk
    obtain ⟨ihrel, ihflag⟩ := ih (Nat.le_of_succ_le hk)
    have hks : k < B.nS := hk
    rw [sweepAcc_succ, sweepAcc_succ]
    exact stateStep_rel B P tol (sweepAcc P tol X k).1 (sweepAcc P tol Y k).1
      (sweepAcc P tol X k).2 (sweepAcc P tol Y k).2 ihflag hm ihrel hks

/-- A full sweep keeps the simulation relation and produces the same
converged flag. -/
theorem sweep_rel (B : Bellman) (P : Problem) (tol : ℚ) (X Y : Bellman)
    (hm : SparseMatches B P) (hrel : SimRel B X Y) :
    SimRel B (sweep X P tol).1 (sweep Y P tol).1
    ∧ (sweep X P tol).2 = (sweep Y P tol).2 := by
  have hX : sweep X P tol = sweepAcc P tol X B.nS := by
    rw [sweep_eq_sweepAcc, hrel.1]
  have hY : sweep Y P tol = sweepAcc P tol Y B.nS := by
    rw [sweep_eq_sweepAcc, hrel.2.2.2.2.1]
  rw [hX, hY]
  exact sweepAcc_rel B P tol X Y hm hrel B.nS (le_refl _)

/-- The whole iteration loop keeps the simulation relation and
produces the same report. -/
theorem improveFrom_rel (B : Bellman) (P : Problem) (tol : ℚ)
    (hm : SparseMatches B P) :
    ∀ (rem : ℕ) (X Y : Bellman) (i : ℕ), SimRel B X Y →
      SimRel B (improveFrom P tol X i rem).1 (improveFrom P tol Y i rem).1
      ∧ (improveFrom P tol X i rem).2 = (improveFrom P tol Y i rem).2 := by
  intro rem
  induction rem with
  | zero =>
    intro X Y i hrel
    exact ⟨hrel, rfl⟩
  | succ rem ih =>
    intro X Y i hrel
    obtain ⟨hsrel, hsflag⟩ := sweep_rel B P tol X Y hm hrel
    simp only [improveFrom]
    by_cases hc : (sweep X P tol).2 = true
    · rw [if_pos hc, if_pos (hsflag ▸ hc)]
      exact ⟨hsrel, rfl⟩
    · rw [if_neg hc, if_neg (by rw [← hsflag]; exact hc)]
      exact ih (sweep X P tol).1 (sweep Y P tol).1 (i + 1) hsrel

/-- C7: when the precomputed sparse transition structure is non-empty,
`improve`'s expectation loop uses it and never calls `dynamic` (the
expectation is the same for every problem supplying the same reward
schedule — it does not depend on `dynamic` at all); and whenever the
sparse entries list exactly the nonzero `(s1, p)` pairs of `dynamic`,
`improve` with the sparse structure produces the same value array, the
same policy array, and the same convergence report as `improve` with
the dense callback. -/
theorem sparse_precedence_equiv (B : Bellman) (P : Problem)
    (hm : SparseMatches B P) :
    (∀ (Q : Problem) (s a : ℕ), B.transitions.length ≠ 0 →
      expectation B P s a = expectation B Q s a)
    ∧ ∀ (n : ℕ) (tol : ℚ),
        (improve B P n tol).1.value
          = (improve { B with transitions := [] } P n tol).1.value
        ∧ (improve B P n tol).1.policy
          = (improve { B with transitions := [] } P n tol).1.policy
        ∧ (improve B P n tol).2
          = (improve { B with transitions := [] } P n tol).2 := by
  constructor
  · intro Q s a hnz
    rw [expectation, expectation, if_pos hnz, if_pos hnz]
  · intro n tol
    have hrel : SimRel B B { B with transitions := [] } :=
      ⟨rfl, rfl, rfl, rfl, rfl, rfl, rfl, rfl, rfl, rfl⟩
    obtain ⟨hr, hflag⟩ :=
      improveFrom_rel B P tol hm n B { B with transitions := [] } 1 hrel
    exact ⟨hr.2.2.2.2.2.2.2.2.1, hr.2.2.2.2.2.2.2.2.2, hflag⟩

set_option synthInstance.maxSize 2000 in
/-- Witness for `sparse_precedence_equiv` on `cexBs`/`cexP`, whose
sparse structure lists exactly the nonzero transitions. -/
theorem sparse_precedence_equiv_wit :
    SparseMatches cexBs cexP
    ∧ ((∀ (Q : Problem) (s a : ℕ), cexBs.transitions.length ≠ 0 →
        expectation cexBs cexP s a = expectation cexBs Q s a)
      ∧ ∀ (n : ℕ) (tol : ℚ),
          (improve cexBs cexP n tol).1.value
            = (improve { cexBs with transitions := [] } cexP n tol).1.value
          ∧ (improve cexBs cexP n tol).1.policy
            = (improve { cexBs with transitions := [] } cexP n tol).1.policy
          ∧ (improve cexBs cexP n tol).2
            = (improve { cexBs with transitions := [] } cexP n tol).2) :=
  ⟨by unfold SparseMatches; decide,
    sparse_precedence_equiv cexBs cexP (by unfold SparseMatches; decide)⟩
